import Mathlib

/-!
Shallow embedding of caryocar's species-collectors network
(src/caryocar/models/speciescollectorsnetwork.py) and proofs checking the
natural-language specification against it.

Node identifiers are strings.  Machine integers of the source are modelled
as Nat; the rational weights produced by Python's true division as Rat; the
floating-point cosine similarities as real numbers.
-/

namespace Caryocar

/-! ### Python values and input validation -/

/-- Python runtime values, as far as `_parseInputData` can observe them. -/
inductive PyVal : Type
  | str (s : String)
  | int (z : Int)
  | list (l : List PyVal)

/-- Python's `isinstance(v, str)`. -/
def PyVal.isStr : PyVal → Bool
  | .str _ => true
  | _ => false

/-- Python's `isinstance(v, list)`. -/
def PyVal.isList : PyVal → Bool
  | .list _ => true
  | _ => false

/-- Iterating a Python value: a list yields its elements, a string yields its
characters (as one-character strings), an int is not iterable (TypeError). -/
def PyVal.elems : PyVal → Option (List PyVal)
  | .list l => some l
  | .str s => some (s.data.map (fun c => .str (String.mk [c])))
  | .int _ => none

/-- Python exceptions raised by `_parseInputData`. -/
inductive PyErr : Type
  | valueError (msg : String)
  | typeError
deriving DecidableEq, Repr

/-- The generator expression
`all( isinstance(c,str) for lst in collectors for c in lst )` with Python's
lazy semantics: `none` models the TypeError raised on reaching a
non-iterable element, which happens only if no non-string element was seen
before it (Python's `all` short-circuits on the first false). -/
def allStrsFlat : List PyVal → Option Bool
  | [] => some true
  | lst :: rest =>
    match lst.elems with
    | none => none
    | some es => if es.all PyVal.isStr then allStrsFlat rest else some false

/-- `SpeciesCollectorsNetwork._parseInputData`.  The first guard in the
source reads `not all(isinstance(lst,list) ...) and all(isinstance(c,str) ...)`,
which Python parenthesizes as `(not all(...)) and all(...)`; the second
conjunct is evaluated only when the first is true. -/
def parseInputData (species collectors : List PyVal) : Except PyErr Unit :=
  let step1 : Except PyErr Unit :=
    if ¬ collectors.all PyVal.isList then
      match allStrsFlat collectors with
      | none => .error .typeError
      | some true => .error (.valueError
          "Collectors data input must be in the format of list of lists of strings.")
      | some false => .ok ()
    else .ok ()
  match step1 with
  | .error e => .error e
  | .ok _ =>
    if ¬ species.all PyVal.isStr then
      .error (.valueError "Species data input must be in the format of list of strings.")
    else if species.length ≠ collectors.length then
      .error (.valueError "Species and collectors data lists have different lengths.")
    else .ok ()

/-! ### Graph construction (`SpeciesCollectorsNetwork.__init__`)

The constructor is embedded for validated inputs: `species` a list of
strings, `collectors` a list of lists of strings, of equal length (the edge
list is only built under that length guard in the source). -/

/-- The edge list
`data = [ (sp,col) for i,sp in enumerate(species) for col in collectors[i] ]`. -/
def scnData (species : List String) (collectors : List (List String)) :
    List (String × String) :=
  (species.zip collectors).flatMap (fun p => p.2.map (fun c => (p.1, c)))

/-- All collector occurrences, `[ c for cols in collectors for c in cols ]`. -/
def scnFlat (collectors : List (List String)) : List String := collectors.flatten

/-- The node set of `networkx.Graph(data)`: every endpoint of the edge list,
each node once. -/
def scnNodes (species : List String) (collectors : List (List String)) :
    List String :=
  ((scnData species collectors).flatMap (fun p => [p.1, p.2])).dedup

/-- A node-attribute table (a Python dict keyed by node id). -/
def AttrMap : Type := String → Option ℕ

/-- Overwriting entry `k` of a dict with `v`. -/
def setAttr (m : AttrMap) (k : String) (v : ℕ) : AttrMap :=
  fun n => if n = k then some v else m n

/-- `networkx.set_node_attributes(G, values, name)` for a constant-valued
`values` dict built over `ks`: sets the attribute on every key that is a
node of the graph and silently skips keys that are not nodes. -/
def setNodeAttrs (nodes : List String) (m : AttrMap) (ks : List String)
    (v : ℕ) : AttrMap :=
  ks.foldl (fun m k => if k ∈ nodes then setAttr m k v else m) m

/-- The `bipartite` node attribute after the two `set_node_attributes` calls
of the constructor: first every species id is tagged 1, then every collector
occurrence is tagged 0, overwriting the species tag of an identifier that
plays both roles. -/
def bipartiteAttr (species : List String) (collectors : List (List String)) :
    AttrMap :=
  let ns := scnNodes species collectors
  setNodeAttrs ns (setNodeAttrs ns (fun _ => none) species 1)
    (scnFlat collectors) 0

/-- The bipartite tag of a node (`none` for identifiers that are not nodes). -/
def tag? (species : List String) (collectors : List (List String))
    (n : String) : Option ℕ :=
  bipartiteAttr species collectors n

/-- The `count` node attribute:
`Counter(c for cols in collectors for c in cols)` updated (added) with
`Counter(species)`. -/
def nodeCount (species : List String) (collectors : List (List String))
    (n : String) : ℕ :=
  (scnFlat collectors).count n + species.count n

/-- The `count` attribute of the undirected edge between `u` and `v`: the
constructor's final loop accumulates the multiplicities of both
orientations of `Counter(data)` into the single undirected edge dict. -/
def eCount (species : List String) (collectors : List (List String))
    (u v : String) : ℕ :=
  if u = v then (scnData species collectors).count (u, v)
  else (scnData species collectors).count (u, v) +
    (scnData species collectors).count (v, u)

/-- Adjacency of the constructed graph. -/
def adjB (species : List String) (collectors : List (List String))
    (u v : String) : Bool :=
  decide ((u, v) ∈ scnData species collectors) ||
    decide ((v, u) ∈ scnData species collectors)

/-- `listSpeciesNodes()` (ids only): graph nodes whose bipartite tag is 1,
in graph node order. -/
def listSpeciesNodes (species : List String)
    (collectors : List (List String)) : List String :=
  (scnNodes species collectors).filter
    (fun n => tag? species collectors n = some 1)

/-- `listCollectorsNodes()` (ids only): graph nodes whose bipartite tag is 0,
in graph node order. -/
def listCollectorsNodes (species : List String)
    (collectors : List (List String)) : List String :=
  (scnNodes species collectors).filter
    (fun n => tag? species collectors n = some 0)

/-! ### Node removal (`SpeciesCollectorsNetwork.remove_nodes_from`)

The override is a fact about an arbitrary graph state, so it is embedded
over a standalone undirected-graph value. -/

/-- An undirected graph state (node list and edge list). -/
structure FinGraph : Type where
  nodes : List String
  edges : List (String × String)
deriving DecidableEq, Repr

/-- A node with no incident edge (`networkx.isolates`: degree zero; a
self-loop contributes degree two, so a self-looped node is not isolated). -/
def FinGraph.isolated (g : FinGraph) (n : String) : Bool :=
  g.edges.all (fun e => e.1 ≠ n ∧ e.2 ≠ n)

/-- `networkx.Graph.remove_nodes_from`: drops the listed nodes (ids that are
not nodes are silently ignored) together with every incident edge. -/
def FinGraph.removeBase (g : FinGraph) (ns : List String) : FinGraph :=
  { nodes := g.nodes.filter (fun n => n ∉ ns),
    edges := g.edges.filter (fun e => e.1 ∉ ns ∧ e.2 ∉ ns) }

/-- `SpeciesCollectorsNetwork.remove_nodes_from`: the parent removal
followed by removal of every node that is isolated in the intermediate
graph. -/
def FinGraph.removeNodesFrom (g : FinGraph) (ns : List String) : FinGraph :=
  let g1 := g.removeBase ns
  g1.removeBase (g1.nodes.filter (fun n => g1.isolated n))

/-! ### Biadjacency matrix, cache, vector queries -/

/-- Lexicographic code-point comparison of character lists, the order
Python's `sorted` uses on strings. -/
def charListLe : List Char → List Char → Bool
  | [], _ => true
  | _ :: _, [] => false
  | a :: as, b :: bs =>
    if a.toNat < b.toNat then true
    else if b.toNat < a.toNat then false
    else charListLe as bs

/-- String comparison by code points. -/
def strLe (a b : String) : Bool := charListLe a.data b.data

/-- Insertion into a string list sorted in nondecreasing order. -/
def insertSorted (s : String) : List String → List String
  | [] => [s]
  | t :: ts => if strLe s t then s :: t :: ts else t :: insertSorted s ts

/-- Python's `sorted` on a list of strings. -/
def sortStrings (l : List String) : List String := l.foldr insertSorted []

/-- Default row order of the biadjacency matrix: sorted collector ids. -/
def rowOrder (species : List String) (collectors : List (List String)) :
    List String :=
  sortStrings (listCollectorsNodes species collectors)

/-- Default column order of the biadjacency matrix: sorted species ids. -/
def colOrder (species : List String) (collectors : List (List String)) :
    List String :=
  sortStrings (listSpeciesNodes species collectors)

/-- `networkx.bipartite.biadjacency_matrix(..., weight='count')` as a dense
row-major matrix: cell (r,c) is the edge count of row node r and column
node c, and 0 where there is no edge. -/
def biadjMatrix (species : List String) (collectors : List (List String)) :
    List (List ℕ) :=
  (rowOrder species collectors).map
    (fun c => (colOrder species collectors).map
      (fun s => eCount species collectors c s))

/-- The `(row_order, column_order, m)` triple stored by
`_buildBiadjMatrix`. -/
def buildBiadj (species : List String) (collectors : List (List String)) :
    List String × List String × List (List ℕ) :=
  (rowOrder species collectors, colOrder species collectors,
    biadjMatrix species collectors)

/-- The mutable state of a `SpeciesCollectorsNetwork` instance as far as the
matrix cache is concerned: the construction input (the graph itself is a
pure function of it) and the `_biadj_matrix` field, `none` until built. -/
structure SCNState : Type where
  species : List String
  collectors : List (List String)
  biadjCache : Option (List String × List String × List (List ℕ))
deriving DecidableEq, Repr

/-- The state right after construction (`self._biadj_matrix = None`). -/
def SCNState.init (species : List String)
    (collectors : List (List String)) : SCNState :=
  ⟨species, collectors, none⟩

/-- `_getBiadjMatrix`: builds the cache if absent, then returns a deep copy
of it.  The deep copy is modelled by value semantics: the returned triple is
an independent value, so whatever a caller later does with it produces new
values and never changes the `biadjCache` field. -/
def SCNState.getBiadj (st : SCNState) :
    (List String × List String × List (List ℕ)) × SCNState :=
  match st.biadjCache with
  | some c => (c, st)
  | none =>
    let c := buildBiadj st.species st.collectors
    (c, { st with biadjCache := some c })

/-- `getSpeciesBag`: obtains the (copied) matrix — building the cache on the
way if needed — looks the collector up in the row id→index dict
(`_biadj_ix[0]`; a missing key raises KeyError, modelled as `none`) and
returns the species column-order list paired with the collector's matrix
row. -/
def SCNState.getSpeciesBag (st : SCNState) (c : String) :
    Option (List String × List ℕ) × SCNState :=
  let (t, st') := st.getBiadj
  match List.findIdx? (fun r => r = c) t.1 with
  | none => (none, st')
  | some i => (some (t.2.1, t.2.2.getD i []), st')

/-- `getSpeciesBag` called on a freshly constructed network, value only. -/
def getSpeciesBag (species : List String) (collectors : List (List String))
    (c : String) : Option (List String × List ℕ) :=
  ((SCNState.init species collectors).getSpeciesBag c).1

/-! ### Projections (`SpeciesCollectorsNetwork.project`) -/

/-- The two node partitions a projection can target. -/
inductive Part : Type
  | species
  | collectors
deriving DecidableEq, Repr

/-- The target partition's node list, in graph node order (the projections
seed their result with `listSpeciesNodes` / `listCollectorsNodes`). -/
def partNodes (species : List String) (collectors : List (List String)) :
    Part → List String
  | .species => listSpeciesNodes species collectors
  | .collectors => listCollectorsNodes species collectors

/-- The opposite partition's node list in matrix order. -/
def oppNodesSorted (species : List String)
    (collectors : List (List String)) : Part → List String
  | .species => rowOrder species collectors
  | .collectors => colOrder species collectors

/-- A projected weighted graph. -/
structure WGraph (W : Type) : Type where
  nodes : List String
  edges : List (String × String × W)
deriving DecidableEq, Repr

/-- The weight of the undirected edge between `u` and `v`, `none` when no
edge was created.  Later `add_edge` calls overwrite earlier ones, hence the
last matching entry wins. -/
def WGraph.weight? {W : Type} (g : WGraph W) (u v : String) : Option W :=
  (g.edges.reverse.find?
    (fun e => (e.1 = u ∧ e.2.1 = v) ∨ (e.1 = v ∧ e.2.1 = u))).map
    (fun e => e.2.2)

/-- Whether the projection created an edge between `u` and `v`. -/
def WGraph.hasEdge {W : Type} (g : WGraph W) (u v : String) : Bool :=
  (g.weight? u v).isSome

/-- The threshold retention test `data >= thresh` (no filtering when no
threshold was given). -/
def passThresh (thresh : Option ℚ) (w : ℚ) : Bool :=
  match thresh with
  | none => true
  | some t => t ≤ w

/-- Binarization `m.data = numpy.ones(...)` of one matrix row: every stored
(nonzero) cell becomes 1. -/
def binarize (r : List ℕ) : List ℕ :=
  r.map (fun x => if x = 0 then 0 else 1)

/-- Dot product of two equally long vectors. -/
def dotN (x y : List ℕ) : ℕ := (x.zipWith (· * ·) y).sum

/-- The survivor test of `_projection_simple_weighting` for one enumerated
pair of named weight-vector rows: only index pairs with i strictly below j
(the upper triangle with zeroed diagonal), kept when the pair product is
nonzero and meets the inclusive threshold. -/
def simpleEdge? (thresh : Option ℚ) (iu jv : ℕ × String × List ℕ) :
    Option (String × String × ℕ) :=
  if iu.1 < jv.1 then
    if dotN iu.2.2 jv.2.2 ≠ 0 ∧
        passThresh thresh ((dotN iu.2.2 jv.2.2 : ℕ) : ℚ) then
      some (iu.2.1, jv.2.1, dotN iu.2.2 jv.2.2)
    else none
  else none

/-- All edges the simple projection materializes: every enumerated pair of
named weight-vector rows, passed through `simpleEdge?`. -/
def simpleEdges (rows : List (String × List ℕ)) (thresh : Option ℚ) :
    List (String × String × ℕ) :=
  rows.enum.flatMap (fun iu =>
    rows.enum.filterMap (fun jv => simpleEdge? thresh iu jv))

/-- `_projection_simple_weighting`: obtains the (copied) cached matrix,
binarizes the copy in place, forms the upper-triangular pair products
(`m.dot(m.T)` for collectors, `m.T.dot(m)` for species), zeroes the
diagonal, applies the inclusive threshold, drops zero entries and
materializes the survivors as weighted edges over the target partition's
nodes. -/
def projSimpleSt (st : SCNState) (part : Part) (thresh : Option ℚ) :
    WGraph ℕ × SCNState :=
  let (t, st') := st.getBiadj
  let mb := t.2.2.map binarize
  let nv : List String × List (List ℕ) :=
    match part with
    | .collectors => (t.1, mb)
    | .species =>
      (t.2.1, (List.range t.2.1.length).map
        (fun i => mb.map (fun r => r.getD i 0)))
  ({ nodes := partNodes st.species st.collectors part,
     edges := simpleEdges (nv.1.zip nv.2) thresh }, st')

/-- The simple-weighting projection of a freshly constructed network. -/
def projSimple (species : List String) (collectors : List (List String))
    (part : Part) (thresh : Option ℚ) : WGraph ℕ :=
  (projSimpleSt (SCNState.init species collectors) part thresh).1

/-- The named binarized weight-vector rows the simple projection pairs up on
a freshly constructed network: the binarized matrix rows for collectors, its
columns for species. -/
def simpleRows (species : List String) (collectors : List (List String)) :
    Part → List (String × List ℕ)
  | .collectors =>
    (rowOrder species collectors).zip
      ((biadjMatrix species collectors).map binarize)
  | .species =>
    (colOrder species collectors).zip
      ((List.range (colOrder species collectors).length).map
        (fun i => ((biadjMatrix species collectors).map binarize).map
          (fun r => r.getD i 0)))

/-- `set(self.adj[u])`: the neighbours of `u`, in graph node order. -/
def adjList (species : List String) (collectors : List (List String))
    (u : String) : List String :=
  (scnNodes species collectors).filter (fun v => adjB species collectors u v)

/-- `u_nbrs_i`: the 2-hop neighbourhood of `u` (neighbours of neighbours),
excluding `u` itself. -/
def twoHop (species : List String) (collectors : List (List String))
    (u : String) : List String :=
  (((adjList species collectors u).flatMap
    (fun v => adjList species collectors v)).dedup).filter (fun w => w ≠ u)

/-- The additive weight of an examined pair: the sum, over the common
neighbours of `u` and `v`, of the averaged edge counts
`(count(u,n) + count(v,n)) / 2`. -/
def addW (species : List String) (collectors : List (List String))
    (u v : String) : ℚ :=
  (((adjList species collectors u).filter
      (fun n => adjB species collectors v n)).map
    (fun n => ((eCount species collectors u n : ℚ) +
      (eCount species collectors v n : ℚ)) / 2)).sum

/-- Every ordered pair `(u, v)` reaching the comparison
`weight >= thresh` of `_projection_additive_weighting`. -/
def pairsExamined (species : List String) (collectors : List (List String))
    (part : Part) : List (String × String) :=
  (partNodes species collectors part).flatMap
    (fun u => (twoHop species collectors u).map (fun v => (u, v)))

/-- Every examined pair together with its additive weight, before any
thresholding. -/
def addCandidates (species : List String) (collectors : List (List String))
    (part : Part) : List (String × String × ℚ) :=
  (pairsExamined species collectors part).map
    (fun p => (p.1, p.2, addW species collectors p.1 p.2))

/-- The edges the additive projection keeps at threshold `t`. -/
def addKept (species : List String) (collectors : List (List String))
    (part : Part) (t : ℚ) : List (String × String × ℚ) :=
  (pairsExamined species collectors part).filterMap (fun p =>
    if t ≤ addW species collectors p.1 p.2 then
      some (p.1, p.2, addW species collectors p.1 p.2)
    else none)

/-- The additive projection's resulting graph at threshold `t`: the target
partition's nodes (with `add_edge` inserting any missing endpoint) and the
kept edges. -/
def projAdditiveG (species : List String) (collectors : List (List String))
    (part : Part) (t : ℚ) : WGraph ℚ :=
  { nodes := (partNodes species collectors part ++
      (addKept species collectors part t).flatMap
        (fun e => [e.1, e.2.1])).dedup,
    edges := addKept species collectors part t }

/-- `_projection_additive_weighting`.  The comparison `weight >= thresh`
raises TypeError when `thresh` is `None`, so a thresholdless call fails —
modelled as `none` — exactly when at least one candidate pair is examined;
with no candidate pair the loop body never runs and the call silently
returns the node-only graph. -/
def projAdditive (species : List String) (collectors : List (List String))
    (part : Part) (thresh : Option ℚ) : Option (WGraph ℚ) :=
  match thresh with
  | none =>
    if pairsExamined species collectors part = [] then
      some { nodes := partNodes species collectors part, edges := [] }
    else none
  | some t => some (projAdditiveG species collectors part t)

/-- The count-valued row of a target-partition node over the opposite
partition in matrix order (a species bag for a collector, an interest
vector for a species). -/
def countRow (species : List String) (collectors : List (List String))
    (part : Part) (u : String) : List ℕ :=
  (oppNodesSorted species collectors part).map
    (fun s => eCount species collectors u s)

/-- Cosine similarity of the count rows of two target-partition nodes.  The
floating-point computation of `sklearn.metrics.pairwise.cosine_similarity`
is idealized over the reals; a zero row divides by zero, which Lean's real
division sends to 0, matching sklearn's convention of leaving zero vectors
with similarity 0. -/
noncomputable def cosSim (species : List String)
    (collectors : List (List String)) (part : Part) (u v : String) : ℝ :=
  (dotN (countRow species collectors part u)
      (countRow species collectors part v) : ℝ) /
    (Real.sqrt (dotN (countRow species collectors part u)
        (countRow species collectors part u)) *
      Real.sqrt (dotN (countRow species collectors part v)
        (countRow species collectors part v)))

/-- The edge relation of `_projection_cosine_similarity`: after zeroing the
diagonal, applying the inclusive threshold and dropping zero entries, an
edge is created between distinct target nodes whose similarity is nonzero
and meets the threshold when one is given. -/
def cosHasEdge (species : List String) (collectors : List (List String))
    (part : Part) (thresh : Option ℝ) (u v : String) : Prop :=
  u ∈ partNodes species collectors part ∧
  v ∈ partNodes species collectors part ∧ u ≠ v ∧
  cosSim species collectors part u v ≠ 0 ∧
  ∀ t ∈ thresh, t ≤ cosSim species collectors part u v

/-- The additive pair weight as the specification words it: a sum over the
nodes of the opposite partition that are adjacent to both endpoints.  This
follows the specification text and is compared against the source-derived
`addW` in the theorems below. -/
def specAddW (species : List String) (collectors : List (List String))
    (part : Part) (u v : String) : ℚ :=
  (((oppNodesSorted species collectors part).filter
      (fun n => adjB species collectors u n && adjB species collectors v n)).map
    (fun n => ((eCount species collectors u n : ℚ) +
      (eCount species collectors v n : ℚ)) / 2)).sum

/-! ### Concrete instances -/

/-- The construction input of the specification's worked example. -/
def exSpecies : List String := ["s1", "s2", "s2"]

/-- The collector lists of the specification's worked example. -/
def exCollectors : List (List String) := [["c1", "c2"], ["c1"], ["c2", "c3"]]

/-- A graph state holding an isolated node "a" next to an edge between "b"
and "c". -/
def gIso : FinGraph := ⟨["a", "b", "c"], [("b", "c")]⟩

/-- A path graph a—b—c. -/
def gPath : FinGraph := ⟨["a", "b", "c"], [("a", "b"), ("b", "c")]⟩

/-- A one-record input whose only species occurs as its own collector in a
second record. -/
def dualSpecies : List String := ["x", "s"]

/-- Collector lists for `dualSpecies`: "x" is a collector of record 1. -/
def dualCollectors : List (List String) := [["c"], ["x"]]

/-! ### General lemmas about the embedding -/

theorem insertSorted_perm (s : String) (l : List String) :
    (insertSorted s l).Perm (s :: l) := by
  induction l with
  | nil => simp [insertSorted]
  | cons t ts ih =>
    simp only [insertSorted]
    by_cases h : strLe s t
    · simp [h]
    · simp only [h, if_neg, Bool.false_eq_true, not_false_eq_true]
      exact (ih.cons t).trans (List.Perm.swap s t ts)

theorem sortStrings_perm (l : List String) : (sortStrings l).Perm l := by
  induction l with
  | nil => simp [sortStrings]
  | cons t ts ih =>
    simpa [sortStrings] using (insertSorted_perm t (sortStrings ts)).trans
      (ih.cons t)

theorem mem_sortStrings (l : List String) (a : String) :
    a ∈ sortStrings l ↔ a ∈ l :=
  (sortStrings_perm l).mem_iff

theorem nodup_sortStrings (l : List String) (h : l.Nodup) :
    (sortStrings l).Nodup :=
  ((sortStrings_perm l).nodup_iff).mpr h

theorem setNodeAttrs_apply (nodes : List String) (m : AttrMap)
    (ks : List String) (v : ℕ) (n : String) :
    setNodeAttrs nodes m ks v n =
      if n ∈ ks ∧ n ∈ nodes then some v else m n := by
  induction ks generalizing m with
  | nil => simp [setNodeAttrs]
  | cons k ks ih =>
    simp only [setNodeAttrs, List.foldl_cons] at *
    rw [ih]
    by_cases hkn : k ∈ nodes
    · by_cases hnk : n = k
      · subst hnk
        by_cases hks : n ∈ ks <;> simp [hkn, hks, setAttr]
      · by_cases hks : n ∈ ks <;> simp [hkn, hks, hnk, setAttr]
    · by_cases hks : n ∈ ks
      · simp [hkn, hks]
      · by_cases hnk : n = k
        · subst hnk; simp [hkn, hks]
        · simp [hkn, hks, hnk]

theorem tag?_eq (sp : List String) (cols : List (List String)) (n : String) :
    tag? sp cols n =
      if n ∈ scnFlat cols ∧ n ∈ scnNodes sp cols then some 0
      else if n ∈ sp ∧ n ∈ scnNodes sp cols then some 1
      else none := by
  simp only [tag?, bipartiteAttr, setNodeAttrs_apply]

theorem adjB_iff (sp : List String) (cols : List (List String))
    (u v : String) :
    adjB sp cols u v = true ↔
      (u, v) ∈ scnData sp cols ∨ (v, u) ∈ scnData sp cols := by
  simp [adjB]

theorem adjB_symm (sp : List String) (cols : List (List String))
    (u v : String) : adjB sp cols u v = adjB sp cols v u := by
  simp [adjB, Bool.or_comm]

theorem scnData_mem_roles (sp : List String) (cols : List (List String))
    (a b : String) (h : (a, b) ∈ scnData sp cols) :
    a ∈ sp ∧ b ∈ scnFlat cols := by
  simp only [scnData, List.mem_flatMap, List.mem_map] at h
  obtain ⟨p, hp, c, hc, he⟩ := h
  obtain ⟨h1, h2⟩ := Prod.mk.injEq _ _ _ _ ▸ he
  subst h1; subst h2
  exact ⟨(List.of_mem_zip hp).1,
    List.mem_flatten.mpr ⟨p.2, (List.of_mem_zip hp).2, hc⟩⟩

theorem mem_scnNodes_iff (sp : List String) (cols : List (List String))
    (x : String) :
    x ∈ scnNodes sp cols ↔
      ∃ p ∈ scnData sp cols, p.1 = x ∨ p.2 = x := by
  simp only [scnNodes, List.mem_dedup, List.mem_flatMap]
  constructor
  · rintro ⟨p, hp, hm⟩
    rcases List.mem_pair.mp hm with h | h
    · exact ⟨p, hp, Or.inl h.symm⟩
    · exact ⟨p, hp, Or.inr h.symm⟩
  · rintro ⟨p, hp, h | h⟩
    · exact ⟨p, hp, by simp [h]⟩
    · exact ⟨p, hp, by simp [h]⟩

theorem adjB_mem_nodes (sp : List String) (cols : List (List String))
    (u v : String) (h : adjB sp cols u v = true) :
    u ∈ scnNodes sp cols ∧ v ∈ scnNodes sp cols := by
  rcases (adjB_iff sp cols u v).mp h with hd | hd
  · exact ⟨(mem_scnNodes_iff sp cols u).mpr ⟨(u, v), hd, Or.inl rfl⟩,
      (mem_scnNodes_iff sp cols v).mpr ⟨(u, v), hd, Or.inr rfl⟩⟩
  · exact ⟨(mem_scnNodes_iff sp cols u).mpr ⟨(v, u), hd, Or.inr rfl⟩,
      (mem_scnNodes_iff sp cols v).mpr ⟨(v, u), hd, Or.inl rfl⟩⟩

theorem mem_adjList (sp : List String) (cols : List (List String))
    (u v : String) :
    v ∈ adjList sp cols u ↔
      v ∈ scnNodes sp cols ∧ adjB sp cols u v = true := by
  simp [adjList, List.mem_filter]

theorem mem_twoHop (sp : List String) (cols : List (List String))
    (u v : String) :
    v ∈ twoHop sp cols u ↔
      v ≠ u ∧ ∃ n, adjB sp cols u n = true ∧ adjB sp cols v n = true := by
  simp only [twoHop, List.mem_filter, List.mem_dedup, List.mem_flatMap,
    mem_adjList, decide_eq_true_eq]
  constructor
  · rintro ⟨⟨n, ⟨_, hun⟩, _, hnv⟩, hne⟩
    exact ⟨hne, n, hun, (adjB_symm sp cols v n) ▸ hnv⟩
  · rintro ⟨hne, n, hun, hvn⟩
    refine ⟨⟨n, ⟨(adjB_mem_nodes sp cols u n hun).2, hun⟩,
      (adjB_mem_nodes sp cols v n hvn).1, ?_⟩, hne⟩
    exact (adjB_symm sp cols n v) ▸ hvn

theorem mem_listCollectorsNodes (sp : List String)
    (cols : List (List String)) (n : String) :
    n ∈ listCollectorsNodes sp cols ↔
      n ∈ scnNodes sp cols ∧ tag? sp cols n = some 0 := by
  simp [listCollectorsNodes, List.mem_filter]

theorem mem_listSpeciesNodes (sp : List String)
    (cols : List (List String)) (n : String) :
    n ∈ listSpeciesNodes sp cols ↔
      n ∈ scnNodes sp cols ∧ tag? sp cols n = some 1 := by
  simp [listSpeciesNodes, List.mem_filter]

theorem scnData_cons (s : String) (sp : List String) (r : List String)
    (cols : List (List String)) :
    scnData (s :: sp) (r :: cols) =
      r.map (fun c => (s, c)) ++ scnData sp cols := by
  simp [scnData]

theorem flat_mem_scnData (sp : List String) (cols : List (List String))
    (x : String) (hlen : sp.length = cols.length)
    (hx : x ∈ scnFlat cols) : ∃ p ∈ scnData sp cols, p.2 = x := by
  induction cols generalizing sp with
  | nil => simp [scnFlat] at hx
  | cons r rs ih =>
    cases sp with
    | nil => simp at hlen
    | cons s sp =>
      have hx' : x ∈ r ∨ ∃ l ∈ rs, x ∈ l := by simpa [scnFlat] using hx
      rcases hx' with hr | ⟨l, hl, hxl⟩
      · exact ⟨(s, x), by
          rw [scnData_cons]
          exact List.mem_append_left _ (List.mem_map.mpr ⟨x, hr, rfl⟩), rfl⟩
      · obtain ⟨p, hp, hpx⟩ := ih sp (by simpa using hlen)
          (List.mem_flatten.mpr ⟨l, hl, hxl⟩)
        exact ⟨p, by rw [scnData_cons]; exact List.mem_append_right _ hp, hpx⟩

theorem pairsExamined_ne_nil (sp : List String)
    (cols : List (List String)) (part : Part) :
    pairsExamined sp cols part ≠ [] ↔
      ∃ u v, u ∈ partNodes sp cols part ∧ v ≠ u ∧
        ∃ n, adjB sp cols u n = true ∧ adjB sp cols v n = true := by
  rw [← List.isEmpty_eq_false, List.isEmpty_eq_false_iff_exists_mem]
  constructor
  · rintro ⟨⟨u, v⟩, hm⟩
    simp only [pairsExamined, List.mem_flatMap, List.mem_map] at hm
    obtain ⟨u', hu', v', hv', he⟩ := hm
    obtain ⟨h1, h2⟩ := Prod.mk.injEq _ _ _ _ ▸ he
    subst h1; subst h2
    obtain ⟨hne, n, h⟩ := (mem_twoHop sp cols u' v').mp hv'
    exact ⟨u', v', hu', hne, n, h⟩
  · rintro ⟨u, v, hu, hne, n, h1, h2⟩
    exact ⟨(u, v), by
      simp only [pairsExamined, List.mem_flatMap, List.mem_map]
      exact ⟨u, hu, v, (mem_twoHop sp cols u v).mpr ⟨hne, n, h1, h2⟩, rfl⟩⟩

/-! ### C1 -/

/-- C1 counterexample: for species=["s1"], collectors=[["c1","c1"]] — one
record listing the same collector twice — the collector node's count
attribute and the (s1,c1) edge count are both 2, although the number of
records whose collector list contains "c1" is 1; nothing is deduplicated. -/
theorem duplicate_collector_not_deduplicated :
    nodeCount ["s1"] [["c1", "c1"]] "c1" = 2 ∧
    eCount ["s1"] [["c1", "c1"]] "s1" "c1" = 2 ∧
    ([["c1", "c1"]].countP (fun r => r.contains "c1")) = 1 := by
  decide

/-! ### C2 -/

/-- C2 counterexample: node "a" of `gIso` is isolated before the call
`remove_nodes_from(["b"])` and is not among the removed ids, yet it is gone
afterwards — the override removes every isolated node, not only nodes the
removal isolated. -/
theorem preexisting_isolate_removed :
    gIso.isolated "a" = true ∧ "a" ∈ gIso.nodes ∧ "a" ∉ ["b"] ∧
    "a" ∉ (gIso.removeNodesFrom ["b"]).nodes := by
  decide

/-! ### C3 -/

/-- C3 counterexample: in the specification's worked example, c1 and c3 do
share the neighbour s2 (via the record ("s2", ["c1"])), so the untresholded
simple-weighting projection onto collectors creates the edge (c1,c3) with
weight 1, contradicting the claimed absence of an edge between c1 and c3. -/
theorem simple_projection_example_c1c3_edge :
    (projSimple exSpecies exCollectors .collectors none).weight? "c1" "c3" =
      some 1 := by
  decide

/-- C3: the untresholded simple-weighting projection onto collectors of the
worked example has edge set exactly {(c1,c2) weight 2, (c1,c3) weight 1,
(c2,c3) weight 1}. -/
theorem simple_projection_example_edges :
    (projSimple exSpecies exCollectors .collectors none).edges =
      [("c1", "c2", 2), ("c1", "c3", 1), ("c2", "c3", 1)] := by
  decide

/-! ### C4 -/

/-- C4: the collectors format guard parenthesizes as
(not all lists) and (all flattened elements strings), so a non-string
element inside a collector list slips through, an empty-string id is never
checked anywhere, while a length mismatch does raise; the first two calls
contradict the guard's own error message. -/
theorem parseInputData_misses_nonstring :
    parseInputData [.str "s1"] [.list [.int 1]] = .ok () ∧
    parseInputData [.str "s1"] [.list [.str ""]] = .ok () ∧
    parseInputData [.str "s1"] [] = .error (.valueError
      "Species and collectors data lists have different lengths.") := by
  exact ⟨rfl, rfl, rfl⟩

/-! ### C9 -/

/-- C9 counterexample: on the one-record network species=["s1"],
collectors=[["c1"]] no candidate pair is ever examined, so the additive
projection with no threshold silently succeeds and returns the node-only
graph instead of failing. -/
theorem additive_no_threshold_can_succeed :
    projAdditive ["s1"] [["c1"]] .collectors none =
      some { nodes := ["c1"], edges := [] } := by
  decide

/-- C9 amended: a thresholdless additive projection fails (TypeError at the
comparison with None) exactly when some target-partition node shares an
opposite-side neighbour with another node — i.e. when at least one candidate
pair reaches the comparison — and otherwise silently returns the node-only
graph. -/
theorem projAdditive_no_thresh (sp : List String)
    (cols : List (List String)) (part : Part) :
    (projAdditive sp cols part none = none ↔
      ∃ u v, u ∈ partNodes sp cols part ∧ v ≠ u ∧
        ∃ n, adjB sp cols u n = true ∧ adjB sp cols v n = true) ∧
    (projAdditive sp cols part none ≠ none →
      projAdditive sp cols part none =
        some { nodes := partNodes sp cols part, edges := [] }) := by
  have hiff := pairsExamined_ne_nil sp cols part
  constructor
  · constructor
    · intro h
      by_cases hp : pairsExamined sp cols part = []
      · simp [projAdditive, hp] at h
      · exact hiff.mp hp
    · intro hex
      simp [projAdditive, hiff.mpr hex]
  · intro h
    by_cases hp : pairsExamined sp cols part = []
    · simp [projAdditive, hp]
    · simp [projAdditive, hp] at h

/-- C9 amended, witness: on the worked example c1 and c2 share the
neighbour s1, so the thresholdless call does fail there. -/
theorem projAdditive_no_thresh_witness :
    projAdditive exSpecies exCollectors .collectors none = none :=
  (projAdditive_no_thresh exSpecies exCollectors .collectors).1.mpr
    ⟨"c1", "c2", by decide, by decide, "s1", by decide, by decide⟩

/-! ### C2 amended -/

theorem isolated_false_iff (g : FinGraph) (n : String) :
    g.isolated n = false ↔ ∃ e ∈ g.edges, e.1 = n ∨ e.2 = n := by
  simp only [FinGraph.isolated]
  rw [List.all_eq_false]
  simp [not_and_or, or_iff_not_imp_left]

theorem mem_removeBase_nodes (g : FinGraph) (ns : List String) (n : String) :
    n ∈ (g.removeBase ns).nodes ↔ n ∈ g.nodes ∧ n ∉ ns := by
  simp [FinGraph.removeBase, List.mem_filter]

theorem mem_removeBase_edges (g : FinGraph) (ns : List String)
    (e : String × String) :
    e ∈ (g.removeBase ns).edges ↔ e ∈ g.edges ∧ e.1 ∉ ns ∧ e.2 ∉ ns := by
  simp [FinGraph.removeBase, List.mem_filter]

theorem removeIsolates_edges (g1 : FinGraph) :
    (g1.removeBase (g1.nodes.filter (fun n => g1.isolated n))).edges =
      g1.edges := by
  simp only [FinGraph.removeBase]
  apply List.filter_eq_self.mpr
  intro e he
  have h1 : e.1 ∉ g1.nodes.filter (fun n => g1.isolated n) := by
    intro hmem
    have hiso := (List.mem_filter.mp hmem).2
    have := List.all_eq_true.mp hiso e he
    simp only [decide_eq_true_eq] at this
    exact this.1 rfl
  have h2 : e.2 ∉ g1.nodes.filter (fun n => g1.isolated n) := by
    intro hmem
    have hiso := (List.mem_filter.mp hmem).2
    have := List.all_eq_true.mp hiso e he
    simp only [decide_eq_true_eq] at this
    exact this.2 rfl
  simp [h1, h2]

theorem removeIsolates_nodes (g1 : FinGraph) (n : String) :
    n ∈ (g1.removeBase (g1.nodes.filter (fun m => g1.isolated m))).nodes ↔
      n ∈ g1.nodes ∧ ∃ e ∈ g1.edges, e.1 = n ∨ e.2 = n := by
  rw [mem_removeBase_nodes]
  constructor
  · rintro ⟨hn, hniso⟩
    have hnotiso : g1.isolated n = false := by
      by_contra h
      exact hniso (List.mem_filter.mpr ⟨hn, Bool.not_eq_false _ |>.mp h⟩)
    exact ⟨hn, (isolated_false_iff g1 n).mp hnotiso⟩
  · rintro ⟨hn, hex⟩
    refine ⟨hn, fun hmem => ?_⟩
    have hiso := (List.mem_filter.mp hmem).2
    obtain ⟨e, he, hine⟩ := hex
    have := List.all_eq_true.mp hiso e he
    simp only [decide_eq_true_eq] at this
    rcases hine with h | h
    · exact this.1 h
    · exact this.2 h

/-- C2 amended: after remove_nodes_from the edges are exactly the original
edges avoiding the removed ids, and a node survives iff it was a node, was
not removed, and retains at least one incident edge both of whose endpoints
escaped removal — i.e. every node isolated in the intermediate graph is
pruned, whether or not it was isolated before the call; consequently the
result contains no isolated node at all. -/
theorem removeNodesFrom_semantics (g : FinGraph) (ns : List String) :
    ((g.removeNodesFrom ns).edges =
      g.edges.filter (fun e => e.1 ∉ ns ∧ e.2 ∉ ns)) ∧
    (∀ n, n ∈ (g.removeNodesFrom ns).nodes ↔
      (n ∈ g.nodes ∧ n ∉ ns ∧
        ∃ e ∈ g.edges, (e.1 = n ∨ e.2 = n) ∧ e.1 ∉ ns ∧ e.2 ∉ ns)) ∧
    (∀ n, n ∈ (g.removeNodesFrom ns).nodes →
      (g.removeNodesFrom ns).isolated n = false) := by
  have hshape : g.removeNodesFrom ns =
      (g.removeBase ns).removeBase
        ((g.removeBase ns).nodes.filter
          (fun m => (g.removeBase ns).isolated m)) := rfl
  have hedges : (g.removeNodesFrom ns).edges = (g.removeBase ns).edges := by
    rw [hshape]; exact removeIsolates_edges (g.removeBase ns)
  have hedges' : (g.removeNodesFrom ns).edges =
      g.edges.filter (fun e => e.1 ∉ ns ∧ e.2 ∉ ns) := by
    rw [hedges]; rfl
  have hnodes : ∀ n, n ∈ (g.removeNodesFrom ns).nodes ↔
      (n ∈ g.nodes ∧ n ∉ ns ∧
        ∃ e ∈ g.edges, (e.1 = n ∨ e.2 = n) ∧ e.1 ∉ ns ∧ e.2 ∉ ns) := by
    intro n
    rw [hshape, removeIsolates_nodes, mem_removeBase_nodes]
    constructor
    · rintro ⟨⟨hgn, hnns⟩, e, he, hine⟩
      have he' := (mem_removeBase_edges g ns e).mp he
      exact ⟨hgn, hnns, e, he'.1, hine, he'.2⟩
    · rintro ⟨hgn, hnns, e, he, hine, hens⟩
      exact ⟨⟨hgn, hnns⟩, e, (mem_removeBase_edges g ns e).mpr ⟨he, hens⟩, hine⟩
  refine ⟨hedges', hnodes, ?_⟩
  intro n hn
  obtain ⟨hgn, hnns, e, he, hine, hens⟩ := (hnodes n).mp hn
  rw [isolated_false_iff]
  exact ⟨e, by
    rw [hedges']
    exact List.mem_filter.mpr ⟨he, by simp [hens.1, hens.2]⟩, hine⟩

/-- C2 amended, witness: removing "c" from the path a—b—c keeps "a", which
retains the edge to "b", and leaves no isolated node. -/
theorem removeNodesFrom_semantics_witness :
    "a" ∈ (gPath.removeNodesFrom ["c"]).nodes ∧
    (gPath.removeNodesFrom ["c"]).isolated "a" = false := by
  constructor
  · exact ((removeNodesFrom_semantics gPath ["c"]).2.1 "a").mpr
      ⟨by decide, by decide, ("a", "b"), by decide, by decide, by decide⟩
  · exact (removeNodesFrom_semantics gPath ["c"]).2.2 "a"
      (((removeNodesFrom_semantics gPath ["c"]).2.1 "a").mpr
        ⟨by decide, by decide, ("a", "b"), by decide, by decide, by decide⟩)

/-! ### C7 -/

theorem findIdx?_row (c : String) (f : String → List ℕ) (l : List String)
    (h : c ∈ l) :
    ∃ i, List.findIdx? (fun r => r = c) l = some i ∧
      (l.map f).getD i [] = f c := by
  induction l with
  | nil => simp at h
  | cons a l ih =>
    by_cases hac : a = c
    · subst hac
      exact ⟨0, by simp [List.findIdx?_cons], by simp⟩
    · have hmem : c ∈ l := by
        rcases List.mem_cons.mp h with h | h
        · exact absurd h.symm hac
        · exact h
      obtain ⟨i, hfi, hget⟩ := ih hmem
      refine ⟨i + 1, ?_, ?_⟩
      · rw [List.findIdx?_cons, if_neg (by simp [hac]),
          List.findIdx?_start_succ, hfi]
        rfl
      · simpa [List.getD_cons_succ] using hget

theorem findIdx?_none_of_not_mem (c : String) (l : List String)
    (h : c ∉ l) : List.findIdx? (fun r => r = c) l = none := by
  rw [List.findIdx?_eq_none_iff]
  intro x hx
  simp only [decide_eq_false_iff_not]
  intro he
  exact h (he ▸ hx)

/-- C7: getSpeciesBag on a collector id present in the cache's row index
returns the species column-order list paired with the collector's matrix
row — entry j of the vector is the edge count with species j of the list,
zero when there is no edge — and fails (KeyError, the NotFoundError of the
specification) on any id absent from the row index. -/
theorem getSpeciesBag_contract (sp : List String)
    (cols : List (List String)) (c : String) :
    (c ∈ rowOrder sp cols →
      getSpeciesBag sp cols c = some (colOrder sp cols,
        (colOrder sp cols).map (fun s => eCount sp cols c s))) ∧
    (c ∉ rowOrder sp cols → getSpeciesBag sp cols c = none) := by
  constructor
  · intro hc
    obtain ⟨i, hfi, hget⟩ := findIdx?_row c
      (fun r => (colOrder sp cols).map (fun s => eCount sp cols r s))
      (rowOrder sp cols) hc
    show (((SCNState.init sp cols).getSpeciesBag c).1 = _)
    simp only [SCNState.getSpeciesBag, SCNState.getBiadj, SCNState.init,
      buildBiadj]
    rw [hfi]
    simp only [biadjMatrix]
    rw [hget]
  · intro hc
    show (((SCNState.init sp cols).getSpeciesBag c).1 = _)
    simp only [SCNState.getSpeciesBag, SCNState.getBiadj, SCNState.init,
      buildBiadj]
    rw [findIdx?_none_of_not_mem c _ hc]

/-- C7 witness: on the worked example, the species bag of "c1" is the
count row [1, 1] over the species order [s1, s2], and an unknown id fails. -/
theorem getSpeciesBag_contract_witness :
    getSpeciesBag exSpecies exCollectors "c1" = some (["s1", "s2"], [1, 1]) ∧
    getSpeciesBag exSpecies exCollectors "zz" = none := by
  constructor
  · rw [(getSpeciesBag_contract exSpecies exCollectors "c1").1 (by decide)]
    decide
  · exact (getSpeciesBag_contract exSpecies exCollectors "zz").2 (by decide)

/-! ### C1 amended -/

theorem count_pair_map (a s c : String) (r : List String) :
    (r.map (fun x => (a, x))).count (s, c) =
      if a = s then r.count c else 0 := by
  induction r with
  | nil => simp
  | cons x r ih =>
    simp only [List.map_cons, List.count_cons, ih, beq_iff_eq,
      Prod.mk.injEq]
    by_cases has : a = s
    · subst has
      by_cases hxc : x = c <;> simp [hxc]
    · simp [has]

theorem scnData_count (sp : List String) (cols : List (List String))
    (s c : String) :
    (scnData sp cols).count (s, c) =
      ((sp.zip cols).map
        (fun p => if p.1 = s then p.2.count c else 0)).sum := by
  rw [scnData, List.flatMap_def, List.count_flatten, List.map_map]
  congr 1
  apply List.map_congr_left
  intro p _
  simpa using count_pair_map p.1 s c p.2

/-- C1 amended: nothing is deduplicated within a record — the count
attribute of a node is the total number of its occurrences summed over
records with multiplicity, and the count of an edge accumulates one per
occurrence of the collector in a record carrying the species (in both
orientations when an identifier plays both roles). -/
theorem counts_per_occurrence (sp : List String)
    (cols : List (List String)) (n s c : String) (hsc : s ≠ c) :
    nodeCount sp cols n = (cols.map (fun r => r.count n)).sum + sp.count n ∧
    eCount sp cols s c =
      ((sp.zip cols).map
        (fun p => if p.1 = s then p.2.count c else 0)).sum +
      ((sp.zip cols).map
        (fun p => if p.1 = c then p.2.count s else 0)).sum := by
  constructor
  · simp [nodeCount, scnFlat, List.count_flatten]
  · rw [eCount, if_neg hsc, scnData_count, scnData_count]

/-- C1 amended, witness: on the duplicate-collector record the node count
is the occurrence total 2 and the edge count likewise accumulates both
occurrences. -/
theorem counts_per_occurrence_witness :
    nodeCount ["s1"] [["c1", "c1"]] "c1" =
      ([["c1", "c1"]].map (fun r => r.count "c1")).sum +
        ["s1"].count "c1" ∧
    eCount ["s1"] [["c1", "c1"]] "s1" "c1" =
      ((["s1"].zip [["c1", "c1"]]).map
        (fun p => if p.1 = "s1" then p.2.count "c1" else 0)).sum +
      ((["s1"].zip [["c1", "c1"]]).map
        (fun p => if p.1 = "c1" then p.2.count "s1" else 0)).sum :=
  counts_per_occurrence ["s1"] [["c1", "c1"]] "c1" "s1" "c1" (by decide)

/-! ### C8 -/

/-- C8: the biadjacency cache starts absent, is built by the first
matrix-dependent query and stored as the count-valued triple; a state that
already holds a cache returns it unchanged; the simple-weighting projection
— which binarizes its returned copy — leaves the stored cache equal to the
count-valued build, and a later getSpeciesBag on that state reads the
original counts and leaves the state untouched.  The source's deep copy is
modelled by value semantics: the copy handed to a caller is an independent
value, so caller-side mutation can never reach the cache field. -/
theorem biadj_cache_discipline (sp : List String)
    (cols : List (List String)) (part : Part) (thresh : Option ℚ)
    (c : String) :
    (SCNState.init sp cols).biadjCache = none ∧
    (SCNState.init sp cols).getBiadj =
      (buildBiadj sp cols, ⟨sp, cols, some (buildBiadj sp cols)⟩) ∧
    (∀ cch, (SCNState.mk sp cols (some cch)).getBiadj =
      (cch, SCNState.mk sp cols (some cch))) ∧
    (projSimpleSt (SCNState.init sp cols) part thresh).2 =
      ⟨sp, cols, some (buildBiadj sp cols)⟩ ∧
    ((projSimpleSt (SCNState.init sp cols) part thresh).2.getSpeciesBag c).2 =
      (projSimpleSt (SCNState.init sp cols) part thresh).2 ∧
    ((projSimpleSt (SCNState.init sp cols) part thresh).2.getSpeciesBag c).1 =
      getSpeciesBag sp cols c := by
  have hst : (projSimpleSt (SCNState.init sp cols) part thresh).2 =
      (⟨sp, cols, some (buildBiadj sp cols)⟩ : SCNState) := rfl
  refine ⟨rfl, rfl, fun cch => rfl, hst, ?_, ?_⟩
  · rw [hst]
    simp only [SCNState.getSpeciesBag, SCNState.getBiadj]
    cases List.findIdx? (fun r => r = c) (buildBiadj sp cols).1 <;> rfl
  · rw [hst]
    show _ = ((SCNState.init sp cols).getSpeciesBag c).1
    simp only [SCNState.getSpeciesBag, SCNState.getBiadj, SCNState.init]

/-! ### C6 -/

theorem simpleEdge?_some_iff (t : ℚ) (iu jv : ℕ × String × List ℕ)
    (e : String × String × ℕ) :
    simpleEdge? (some t) iu jv = some e ↔
      (simpleEdge? none iu jv = some e ∧ t ≤ (e.2.2 : ℚ)) := by
  simp only [simpleEdge?, passThresh]
  by_cases hij : iu.1 < jv.1
  · simp only [if_pos hij]
    by_cases hz : dotN iu.2.2 jv.2.2 = 0
    · simp [hz]
    · by_cases ht : t ≤ ((dotN iu.2.2 jv.2.2 : ℕ) : ℚ)
      · rw [if_pos ⟨hz, by simpa using ht⟩, if_pos ⟨hz, trivial⟩]
        constructor
        · intro h
          refine ⟨h, ?_⟩
          injection h with h'
          subst h'
          simpa using ht
        · exact fun h => h.1
      · rw [if_neg (fun hc => ht (by simpa using hc.2)), if_pos ⟨hz, trivial⟩]
        constructor
        · intro h; cases h
        · rintro ⟨h, hle⟩
          injection h with h'
          subst h'
          exact absurd (by simpa using hle) ht
  · simp [hij]

theorem mem_simpleEdges_iff (rows : List (String × List ℕ)) (t : ℚ)
    (e : String × String × ℕ) :
    e ∈ simpleEdges rows (some t) ↔
      (e ∈ simpleEdges rows none ∧ t ≤ (e.2.2 : ℚ)) := by
  simp only [simpleEdges, List.mem_flatMap, List.mem_filterMap]
  constructor
  · rintro ⟨iu, hiu, jv, hjv, hf⟩
    obtain ⟨h0, ht⟩ := (simpleEdge?_some_iff t iu jv e).mp hf
    exact ⟨⟨iu, hiu, jv, hjv, h0⟩, ht⟩
  · rintro ⟨⟨iu, hiu, jv, hjv, h0⟩, ht⟩
    exact ⟨iu, hiu, jv, hjv, (simpleEdge?_some_iff t iu jv e).mpr ⟨h0, ht⟩⟩

theorem projSimple_edges (sp : List String) (cols : List (List String))
    (part : Part) (thresh : Option ℚ) :
    (projSimple sp cols part thresh).edges =
      simpleEdges (simpleRows sp cols part) thresh := by
  cases part <;> rfl

theorem mem_addKept_iff (sp : List String) (cols : List (List String))
    (part : Part) (t : ℚ) (e : String × String × ℚ) :
    e ∈ addKept sp cols part t ↔
      (e ∈ addCandidates sp cols part ∧ t ≤ e.2.2) := by
  simp only [addKept, addCandidates, List.mem_filterMap, List.mem_map]
  constructor
  · rintro ⟨p, hp, hf⟩
    by_cases ht : t ≤ addW sp cols p.1 p.2
    · rw [if_pos ht] at hf
      cases hf
      exact ⟨⟨p, hp, rfl⟩, ht⟩
    · rw [if_neg ht] at hf
      cases hf
  · rintro ⟨⟨p, hp, he⟩, ht⟩
    refine ⟨p, hp, ?_⟩
    rw [if_pos (by rw [← he] at ht; exact ht), he]

/-- C6: for each of the three rules the threshold is an inclusive retention
bound on an otherwise threshold-independent weight — an edge survives at
threshold t exactly when it survives unthresholded (for additive weighting:
is a candidate pair) with weight at least t — and consequently the edge set
at a larger threshold is contained in the edge set at a smaller one. -/
theorem threshold_retention (sp : List String) (cols : List (List String))
    (part : Part) :
    (∀ t1 t2 : ℚ, t1 < t2 → ∀ e,
      e ∈ (projSimple sp cols part (some t2)).edges →
        e ∈ (projSimple sp cols part (some t1)).edges) ∧
    (∀ t : ℚ, ∀ e, e ∈ (projSimple sp cols part (some t)).edges ↔
      (e ∈ (projSimple sp cols part none).edges ∧ t ≤ (e.2.2 : ℚ))) ∧
    (∀ t1 t2 : ℚ, t1 < t2 → ∀ e,
      e ∈ (projAdditiveG sp cols part t2).edges →
        e ∈ (projAdditiveG sp cols part t1).edges) ∧
    (∀ t : ℚ, ∀ e, e ∈ (projAdditiveG sp cols part t).edges ↔
      (e ∈ addCandidates sp cols part ∧ t ≤ e.2.2)) ∧
    (∀ r1 r2 : ℝ, r1 < r2 → ∀ u v,
      cosHasEdge sp cols part (some r2) u v →
        cosHasEdge sp cols part (some r1) u v) ∧
    (∀ r : ℝ, ∀ u v, cosHasEdge sp cols part (some r) u v ↔
      (cosHasEdge sp cols part none u v ∧
        r ≤ cosSim sp cols part u v)) := by
  have hsimple : ∀ t : ℚ, ∀ e,
      e ∈ (projSimple sp cols part (some t)).edges ↔
        (e ∈ (projSimple sp cols part none).edges ∧ t ≤ (e.2.2 : ℚ)) := by
    intro t e
    rw [projSimple_edges, projSimple_edges]
    exact mem_simpleEdges_iff (simpleRows sp cols part) t e
  have hadd : ∀ t : ℚ, ∀ e,
      e ∈ (projAdditiveG sp cols part t).edges ↔
        (e ∈ addCandidates sp cols part ∧ t ≤ e.2.2) := by
    intro t e
    exact mem_addKept_iff sp cols part t e
  have hcos : ∀ r : ℝ, ∀ u v,
      cosHasEdge sp cols part (some r) u v ↔
        (cosHasEdge sp cols part none u v ∧
          r ≤ cosSim sp cols part u v) := by
    intro r u v
    simp only [cosHasEdge]
    constructor
    · rintro ⟨h1, h2, h3, h4, h5⟩
      refine ⟨⟨h1, h2, h3, h4, ?_⟩, h5 r rfl⟩
      intro s hs
      cases hs
    · rintro ⟨⟨h1, h2, h3, h4, _⟩, h5⟩
      refine ⟨h1, h2, h3, h4, ?_⟩
      intro s hs
      injection hs with h'
      subst h'
      exact h5
  refine ⟨?_, hsimple, ?_, hadd, ?_, hcos⟩
  · intro t1 t2 h12 e he
    obtain ⟨h0, ht⟩ := (hsimple t2 e).mp he
    exact (hsimple t1 e).mpr ⟨h0, le_trans (le_of_lt h12) ht⟩
  · intro t1 t2 h12 e he
    obtain ⟨h0, ht⟩ := (hadd t2 e).mp he
    exact (hadd t1 e).mpr ⟨h0, le_trans (le_of_lt h12) ht⟩
  · intro r1 r2 h12 u v he
    obtain ⟨h0, ht⟩ := (hcos r2 u v).mp he
    exact (hcos r1 u v).mpr ⟨h0, le_trans (le_of_lt h12) ht⟩

theorem addW_example : addW exSpecies exCollectors "c1" "c2" = 2 := by
  rw [addW]
  have hl : ((adjList exSpecies exCollectors "c1").filter
      (fun n => adjB exSpecies exCollectors "c2" n)) = ["s1", "s2"] := by
    decide
  rw [hl]
  have e1 : eCount exSpecies exCollectors "c1" "s1" = 1 := by decide
  have e2 : eCount exSpecies exCollectors "c2" "s1" = 1 := by decide
  have e3 : eCount exSpecies exCollectors "c1" "s2" = 1 := by decide
  have e4 : eCount exSpecies exCollectors "c2" "s2" = 1 := by decide
  simp only [List.map_cons, List.map_nil, List.sum_cons, List.sum_nil,
    e1, e2, e3, e4]
  norm_num

theorem cosSim_example :
    cosSim exSpecies exCollectors Part.collectors "c1" "c2" = 1 := by
  have h1 : countRow exSpecies exCollectors Part.collectors "c1" = [1, 1] :=
    by decide
  have h2 : countRow exSpecies exCollectors Part.collectors "c2" = [1, 1] :=
    by decide
  rw [cosSim, h1, h2]
  have hd : dotN [1, 1] [1, 1] = 2 := by decide
  rw [hd]
  push_cast
  rw [Real.mul_self_sqrt (by norm_num)]
  norm_num

theorem cosHasEdge_example :
    cosHasEdge exSpecies exCollectors .collectors (some 1) "c1" "c2" := by
  refine ⟨by decide, by decide, by decide, ?_, ?_⟩
  · rw [cosSim_example]; norm_num
  · intro s hs
    injection hs with h
    subst h
    rw [cosSim_example]

/-! ### C5 -/

theorem scnNodes_nodup (sp : List String) (cols : List (List String)) :
    (scnNodes sp cols).Nodup :=
  List.nodup_dedup _

theorem nodup_perm_of_mem_iff (l1 l2 : List String) (h1 : l1.Nodup)
    (h2 : l2.Nodup) (hmem : ∀ x, x ∈ l1 ↔ x ∈ l2) : l1.Perm l2 :=
  List.perm_of_nodup_nodup_toFinset_eq h1 h2
    (Finset.ext (fun a => by simpa using hmem a))

theorem tag?_zero_iff (sp : List String) (cols : List (List String))
    (n : String) :
    tag? sp cols n = some 0 ↔
      n ∈ scnFlat cols ∧ n ∈ scnNodes sp cols := by
  rw [tag?_eq]
  split_ifs with h0 h1 <;> simp_all

theorem tag?_one_iff (sp : List String) (cols : List (List String))
    (n : String) :
    tag? sp cols n = some 1 ↔
      n ∉ scnFlat cols ∧ n ∈ sp ∧ n ∈ scnNodes sp cols := by
  rw [tag?_eq]
  split_ifs with h0 h1
  · simp only [Option.some.injEq]
    constructor
    · intro h; cases h
    · rintro ⟨hnf, -, -⟩; exact absurd h0.1 hnf
  · simp only [Option.some.injEq, true_iff]
    exact ⟨fun hf => h0 ⟨hf, h1.2⟩, h1⟩
  · constructor
    · intro h; cases h
    · rintro ⟨hnf, hsp, hnn⟩; exact absurd ⟨hsp, hnn⟩ h1

theorem mem_rowOrder (sp : List String) (cols : List (List String))
    (n : String) :
    n ∈ rowOrder sp cols ↔
      n ∈ scnNodes sp cols ∧ tag? sp cols n = some 0 := by
  rw [rowOrder, mem_sortStrings, mem_listCollectorsNodes]

theorem mem_colOrder (sp : List String) (cols : List (List String))
    (n : String) :
    n ∈ colOrder sp cols ↔
      n ∈ scnNodes sp cols ∧ tag? sp cols n = some 1 := by
  rw [colOrder, mem_sortStrings, mem_listSpeciesNodes]

theorem oppNodesSorted_nodup (sp : List String) (cols : List (List String))
    (part : Part) : (oppNodesSorted sp cols part).Nodup := by
  cases part <;>
    exact nodup_sortStrings _ ((scnNodes_nodup sp cols).filter _)

theorem mem_oppNodesSorted_scnNodes (sp : List String)
    (cols : List (List String)) (part : Part) (n : String)
    (h : n ∈ oppNodesSorted sp cols part) : n ∈ scnNodes sp cols := by
  cases part with
  | species => exact ((mem_rowOrder sp cols n).mp h).1
  | collectors => exact ((mem_colOrder sp cols n).mp h).1

theorem partNodes_tag_collectors (sp : List String)
    (cols : List (List String)) (u : String)
    (hu : u ∈ partNodes sp cols .collectors) :
    u ∈ scnFlat cols ∧ u ∈ scnNodes sp cols :=
  (tag?_zero_iff sp cols u).mp ((mem_listCollectorsNodes sp cols u).mp hu).2

theorem partNodes_tag_species (sp : List String)
    (cols : List (List String)) (u : String)
    (hu : u ∈ partNodes sp cols .species) :
    u ∉ scnFlat cols ∧ u ∈ sp ∧ u ∈ scnNodes sp cols :=
  (tag?_one_iff sp cols u).mp ((mem_listSpeciesNodes sp cols u).mp hu).2

theorem adj_opposite (sp : List String) (cols : List (List String))
    (part : Part) (u n : String)
    (hdisj : ∀ x ∈ sp, x ∉ scnFlat cols)
    (hu : u ∈ partNodes sp cols part)
    (h : adjB sp cols u n = true) :
    n ∈ oppNodesSorted sp cols part := by
  have hnn : n ∈ scnNodes sp cols := (adjB_mem_nodes sp cols u n h).2
  cases part with
  | collectors =>
    have huflat := (partNodes_tag_collectors sp cols u hu).1
    rcases (adjB_iff sp cols u n).mp h with hd | hd
    · exact absurd huflat (hdisj u (scnData_mem_roles sp cols u n hd).1)
    · have hnsp := (scnData_mem_roles sp cols n u hd).1
      exact (mem_colOrder sp cols n).mpr ⟨hnn,
        (tag?_one_iff sp cols n).mpr ⟨hdisj n hnsp, hnsp, hnn⟩⟩
  | species =>
    have huflat := (partNodes_tag_species sp cols u hu).1
    rcases (adjB_iff sp cols u n).mp h with hd | hd
    · have hnflat := (scnData_mem_roles sp cols u n hd).2
      exact (mem_rowOrder sp cols n).mpr ⟨hnn,
        (tag?_zero_iff sp cols n).mpr ⟨hnflat, hnn⟩⟩
    · exact absurd (scnData_mem_roles sp cols n u hd).2 huflat

theorem addW_eq_specAddW (sp : List String) (cols : List (List String))
    (part : Part) (u v : String)
    (hdisj : ∀ x ∈ sp, x ∉ scnFlat cols)
    (hu : u ∈ partNodes sp cols part) :
    addW sp cols u v = specAddW sp cols part u v := by
  rw [addW, specAddW]
  apply List.Perm.sum_eq
  apply List.Perm.map
  apply nodup_perm_of_mem_iff
  · exact (scnNodes_nodup sp cols).filter _ |>.filter _
  · exact (oppNodesSorted_nodup sp cols part).filter _
  · intro n
    simp only [List.mem_filter, mem_adjList, Bool.and_eq_true]
    constructor
    · rintro ⟨⟨hnn, hun⟩, hvn⟩
      exact ⟨adj_opposite sp cols part u n hdisj hu hun, hun, hvn⟩
    · rintro ⟨hopp, hun, hvn⟩
      exact ⟨⟨mem_oppNodesSorted_scnNodes sp cols part n hopp, hun⟩, hvn⟩

theorem addW_symm (sp : List String) (cols : List (List String))
    (u v : String) : addW sp cols u v = addW sp cols v u := by
  rw [addW, addW]
  have hperm : ((adjList sp cols u).filter
      (fun n => adjB sp cols v n)).Perm
      ((adjList sp cols v).filter (fun n => adjB sp cols u n)) := by
    apply nodup_perm_of_mem_iff
    · exact (scnNodes_nodup sp cols).filter _ |>.filter _
    · exact (scnNodes_nodup sp cols).filter _ |>.filter _
    · intro n
      simp only [List.mem_filter, mem_adjList]
      constructor
      · rintro ⟨⟨hnn, hun⟩, hvn⟩; exact ⟨⟨hnn, hvn⟩, hun⟩
      · rintro ⟨⟨hnn, hvn⟩, hun⟩; exact ⟨⟨hnn, hun⟩, hvn⟩
  rw [show (fun n => ((eCount sp cols u n : ℚ) +
      (eCount sp cols v n : ℚ)) / 2) =
    (fun n => ((eCount sp cols v n : ℚ) + (eCount sp cols u n : ℚ)) / 2)
    from funext (fun n => by ring)]
  exact (hperm.map _).sum_eq

theorem mem_pairsExamined (sp : List String) (cols : List (List String))
    (part : Part) (u v : String) :
    (u, v) ∈ pairsExamined sp cols part ↔
      u ∈ partNodes sp cols part ∧ v ∈ twoHop sp cols u := by
  simp only [pairsExamined, List.mem_flatMap, List.mem_map]
  constructor
  · rintro ⟨a, ha, b, hb, he⟩
    obtain ⟨h1, h2⟩ := Prod.mk.injEq _ _ _ _ ▸ he
    subst h1; subst h2
    exact ⟨ha, hb⟩
  · rintro ⟨hu, hv⟩
    exact ⟨u, hu, v, hv, rfl⟩

theorem mem_addCandidates (sp : List String) (cols : List (List String))
    (part : Part) (e : String × String × ℚ) :
    e ∈ addCandidates sp cols part ↔
      ∃ p, p ∈ pairsExamined sp cols part ∧
        e = (p.1, p.2, addW sp cols p.1 p.2) := by
  simp only [addCandidates, List.mem_map]
  constructor
  · rintro ⟨p, hp, h⟩; exact ⟨p, hp, h.symm⟩
  · rintro ⟨p, hp, h⟩; exact ⟨p, hp, h.symm⟩

theorem weight?_eq_some {W : Type} (g : WGraph W) (u v : String) (w : W)
    (hex : ∃ e ∈ g.edges, (e.1 = u ∧ e.2.1 = v) ∨ (e.1 = v ∧ e.2.1 = u))
    (hall : ∀ e ∈ g.edges,
      ((e.1 = u ∧ e.2.1 = v) ∨ (e.1 = v ∧ e.2.1 = u)) → e.2.2 = w) :
    g.weight? u v = some w := by
  rw [WGraph.weight?]
  have hs : (g.edges.reverse.find?
      (fun e => (e.1 = u ∧ e.2.1 = v) ∨ (e.1 = v ∧ e.2.1 = u))).isSome := by
    rw [List.find?_isSome]
    obtain ⟨e, he, hme⟩ := hex
    exact ⟨e, List.mem_reverse.mpr he, by simpa using hme⟩
  obtain ⟨e', he'⟩ := Option.isSome_iff_exists.mp hs
  rw [he']
  have hm := List.mem_reverse.mp (List.mem_of_find?_eq_some he')
  have hp := List.find?_some he'
  simp only [decide_eq_true_eq] at hp
  exact congrArg some (hall e' hm hp)

theorem weight?_eq_none {W : Type} (g : WGraph W) (u v : String)
    (hall : ∀ e ∈ g.edges,
      ¬((e.1 = u ∧ e.2.1 = v) ∨ (e.1 = v ∧ e.2.1 = u))) :
    g.weight? u v = none := by
  rw [WGraph.weight?]
  rw [List.find?_eq_none.mpr
    (fun x hx => by simpa using hall x (List.mem_reverse.mp hx))]
  rfl

/-- C5: for distinct same-partition nodes sharing at least one neighbour —
under the bipartite sanity condition that no identifier is both a species
and a collector — the additive projection assigns the pair exactly the
specification's weight, the sum over every opposite-partition node adjacent
to both of the averaged edge counts, and creates the edge precisely when
that weight meets the threshold. -/
theorem additive_weight_formula (sp : List String)
    (cols : List (List String)) (part : Part) (t : ℚ) (u v : String)
    (hdisj : ∀ x ∈ sp, x ∉ scnFlat cols)
    (hu : u ∈ partNodes sp cols part) (hv : v ∈ partNodes sp cols part)
    (huv : u ≠ v)
    (hshare : ∃ n, adjB sp cols u n = true ∧ adjB sp cols v n = true) :
    (projAdditiveG sp cols part t).weight? u v =
      if t ≤ specAddW sp cols part u v then
        some (specAddW sp cols part u v)
      else none := by
  have hw : addW sp cols u v = specAddW sp cols part u v :=
    addW_eq_specAddW sp cols part u v hdisj hu
  have hw' : addW sp cols v u = specAddW sp cols part u v :=
    (addW_symm sp cols v u).trans hw
  obtain ⟨n, hun, hvn⟩ := hshare
  have huv' : (u, v) ∈ pairsExamined sp cols part :=
    (mem_pairsExamined sp cols part u v).mpr
      ⟨hu, (mem_twoHop sp cols u v).mpr ⟨Ne.symm huv, n, hun, hvn⟩⟩
  have hedges : (projAdditiveG sp cols part t).edges =
      addKept sp cols part t := rfl
  by_cases ht : t ≤ specAddW sp cols part u v
  · rw [if_pos ht]
    apply weight?_eq_some
    · refine ⟨(u, v, addW sp cols u v), ?_, Or.inl ⟨rfl, rfl⟩⟩
      rw [hedges, mem_addKept_iff]
      exact ⟨(mem_addCandidates sp cols part _).mpr ⟨(u, v), huv', rfl⟩,
        by rw [hw]; exact ht⟩
    · intro e he hme
      rw [hedges, mem_addKept_iff] at he
      obtain ⟨p, _, hep⟩ := (mem_addCandidates sp cols part e).mp he.1
      rcases hme with ⟨h1, h2⟩ | ⟨h1, h2⟩
      · have hp1 : p.1 = u := by rw [hep] at h1; exact h1
        have hp2 : p.2 = v := by rw [hep] at h2; exact h2
        rw [hep]
        simp only []
        rw [hp1, hp2, hw]
      · have hp1 : p.1 = v := by rw [hep] at h1; exact h1
        have hp2 : p.2 = u := by rw [hep] at h2; exact h2
        rw [hep]
        simp only []
        rw [hp1, hp2, hw']
  · rw [if_neg ht]
    apply weight?_eq_none
    intro e he hme
    rw [hedges, mem_addKept_iff] at he
    obtain ⟨p, _, hep⟩ := (mem_addCandidates sp cols part e).mp he.1
    have hte := he.2
    rcases hme with ⟨h1, h2⟩ | ⟨h1, h2⟩
    · have hp1 : p.1 = u := by rw [hep] at h1; exact h1
      have hp2 : p.2 = v := by rw [hep] at h2; exact h2
      rw [hep] at hte
      simp only [] at hte
      rw [hp1, hp2, hw] at hte
      exact ht hte
    · have hp1 : p.1 = v := by rw [hep] at h1; exact h1
      have hp2 : p.2 = u := by rw [hep] at h2; exact h2
      rw [hep] at hte
      simp only [] at hte
      rw [hp1, hp2, hw'] at hte
      exact ht hte

/-- C5 witness: on the worked example, c1 and c2 share s1 and s2, the
specification weight is (1+1)/2 + (1+1)/2 = 2, and at threshold 1 the edge
is created with exactly that weight. -/
theorem additive_weight_formula_witness :
    (projAdditiveG exSpecies exCollectors .collectors 1).weight? "c1" "c2" =
      if (1 : ℚ) ≤ specAddW exSpecies exCollectors .collectors "c1" "c2"
      then some (specAddW exSpecies exCollectors .collectors "c1" "c2")
      else none :=
  additive_weight_formula exSpecies exCollectors .collectors 1 "c1" "c2"
    (by decide) (by decide) (by decide) (by decide)
    ⟨"s1", by decide, by decide⟩

/-- C6 witness: concrete retention instances on the worked example, one per
rule — the simple and additive edges surviving threshold 2 survive
threshold 1, and the cosine edge at threshold 1 survives threshold 1/2. -/
theorem threshold_retention_witness :
    ("c1", "c2", 2) ∈
      (projSimple exSpecies exCollectors .collectors (some 1)).edges ∧
    ("c1", "c2", (2 : ℚ)) ∈
      (projAdditiveG exSpecies exCollectors .collectors 1).edges ∧
    cosHasEdge exSpecies exCollectors .collectors (some (1 / 2))
      "c1" "c2" := by
  refine ⟨?_, ?_, ?_⟩
  · exact (threshold_retention exSpecies exCollectors .collectors).1 1 2
      (by norm_num) _ (by decide)
  · have hmem : ("c1", "c2", (2 : ℚ)) ∈
        addCandidates exSpecies exCollectors .collectors := by
      rw [mem_addCandidates]
      exact ⟨("c1", "c2"), by decide, by rw [addW_example]⟩
    exact (threshold_retention exSpecies exCollectors .collectors).2.2.1 1 2
      (by norm_num) _
      (((threshold_retention exSpecies exCollectors
          .collectors).2.2.2.1 2 _).mpr ⟨hmem, by norm_num⟩)
  · exact (threshold_retention exSpecies exCollectors
      .collectors).2.2.2.2.1 (1 / 2) 1 (by norm_num) "c1" "c2"
      cosHasEdge_example

/-! ### C10 -/

/-- C10: an identifier occurring both as a species and inside some record's
collector list yields a single node whose count adds the species and
collector occurrences and whose bipartite tag is 0 — the collector tag,
set second, overwrites the species tag — so the node is listed by
listCollectorsNodes and not by listSpeciesNodes. -/
theorem dual_role_identifier (sp : List String)
    (cols : List (List String)) (x : String)
    (hlen : sp.length = cols.length) (hsp : x ∈ sp)
    (hflat : x ∈ scnFlat cols) :
    (scnNodes sp cols).count x = 1 ∧
    tag? sp cols x = some 0 ∧
    nodeCount sp cols x = (scnFlat cols).count x + sp.count x ∧
    x ∈ listCollectorsNodes sp cols ∧
    x ∉ listSpeciesNodes sp cols := by
  obtain ⟨p, hp, hpx⟩ := flat_mem_scnData sp cols x hlen hflat
  have hxn : x ∈ scnNodes sp cols :=
    (mem_scnNodes_iff sp cols x).mpr ⟨p, hp, Or.inr hpx⟩
  have htag : tag? sp cols x = some 0 := by
    rw [tag?_eq]; simp [hflat, hxn]
  refine ⟨?_, htag, rfl, ?_, ?_⟩
  · exact List.count_eq_one_of_mem (List.nodup_dedup _) hxn
  · exact (mem_listCollectorsNodes sp cols x).mpr ⟨hxn, htag⟩
  · intro hmem
    have h1 := ((mem_listSpeciesNodes sp cols x).mp hmem).2
    rw [htag] at h1
    simp at h1

/-- C10 witness: on `dualSpecies`/`dualCollectors` the identifier "x" is
species of record 0 and collector of record 1. -/
theorem dual_role_identifier_witness :
    (scnNodes dualSpecies dualCollectors).count "x" = 1 ∧
    tag? dualSpecies dualCollectors "x" = some 0 ∧
    nodeCount dualSpecies dualCollectors "x" =
      (scnFlat dualCollectors).count "x" + dualSpecies.count "x" ∧
    "x" ∈ listCollectorsNodes dualSpecies dualCollectors ∧
    "x" ∉ listSpeciesNodes dualSpecies dualCollectors :=
  dual_role_identifier dualSpecies dualCollectors "x" (by decide) (by decide)
    (by decide)

end Caryocar



